import Mathlib

/-!
Verification of the Gemeindestand mapper (Swiss municipality code reconciliation).

This file gives a shallow embedding of the core of
`code/municipality_mapping/code_mapper.py` (state identification, code
correction, multi-hop mapping composition, newest-state projection) and of the
catalog construction in `code/municipality_mapping/base_class.py`, and proves
or refutes the frozen claims about it.

Modelling conventions:
* Gemeindestand dates are naturals ordered chronologically (the code compares
  and sorts parsed `dd-mm-YYYY` dates; only their total order matters here).
* Python sets of codes are `Finset Nat`; Python dicts are association lists
  with unique keys maintained by a Python-style insert (update in place on an
  existing key, append otherwise).
* DataFrames are lists of rows; `pandas.merge(..., how='left')` is modelled
  row by row: a left row with k matching right rows yields k output rows, and
  an unmatched left row yields exactly one output row with missing values.
* Python exceptions are modelled with `Except` / `Option`; in particular the
  `UnboundLocalError` that `_check_for_non_bfs_codes` hits when the input has
  no wrong codes (its `wrong_codes_dict` is only assigned inside the
  `if len(wrong_codes) > 0` branch) is an explicit error value.
-/

/-- Python-level errors raised by the state identifier. `unboundLocal` is the
`UnboundLocalError` from `_check_for_non_bfs_codes` (see module comment);
`stateNotFound` is the `ValueError` of `_infer_gemeindestand` /
`find_gemeindestand`. -/
inductive FgErr where
  | unboundLocal
  | stateNotFound
deriving DecidableEq, Repr

deriving instance DecidableEq for Except

/-- One Gemeindestand: a dated snapshot together with its BfsCode → Name
dictionary, exactly the per-date entry of `gmde_dct` built by
`BaseMunicipalityData._fetch_base_data` (base_class.py lines 75-97). -/
structure GState where
  date : Nat
  codes : List (Nat × String)
deriving DecidableEq, Repr

/-- The state catalog: `self.data` rows paired with `self.gmde_dct` values, in
chronological construction order. -/
abbrev Catalog := List GState

/-- Keys of a state's code→name dict; `dict(zip(codes, names))` keeps the
distinct codes in first-occurrence order. -/
def gmdeKeys (s : GState) : List Nat :=
  (s.codes.map Prod.fst).dedup

/-- `anz_gmde` of a state: `snapshot['BfsCode'].nunique()`
(base_class.py line 82). -/
def anzGmde (s : GState) : Nat :=
  (gmdeKeys s).length

/-- `self.gmde_dct.get(date, {})`: the code→name dict of the state recorded
under `date` (dates are unique in the catalog, so the first hit is the dict
entry). -/
def gmdeGet (cat : Catalog) (d : Nat) : List (Nat × String) :=
  ((cat.find? (fun st => st.date = d)).map GState.codes).getD []

/-- The key set of `gmde_dct.get(d, {})` as a set
(`set(self.gmde_dct.get(candidate, {}).keys())`). -/
def gmdeKeySet (cat : Catalog) (d : Nat) : Finset Nat :=
  ((gmdeGet cat d).map Prod.fst).toFinset

/-- `self.all_historical_bfs_codes`: the union of every state's key set
(base_class.py lines 32-34). -/
def allHistoricalCodes (cat : Catalog) : Finset Nat :=
  (cat.flatMap gmdeKeys).toFinset

/-- The 8 fixed shared-territory ("Kommunanz") codes of
`_check_for_unpoulated_areas` (code_mapper.py lines 44-53). -/
def gmdeFreieGeb : List Nat :=
  [2285, 2391, 5020, 5391, 5238, 5394, 6072, 6391]

/-- `_check_for_unpoulated_areas` (code_mapper.py lines 31-73): remove the
shared-territory codes, then every code >= 7000. -/
def checkForUnpoulatedAreas (s : Finset Nat) : Finset Nat :=
  let sharedTerritories := s.filter (fun c => c ∈ gmdeFreieGeb)
  let s1 := s \ sharedTerritories
  let nonMunicipalAreas := s1.filter (fun c => 7000 ≤ c)
  s1 \ nonMunicipalAreas

/-- `_check_gemeindestand` (code_mapper.py lines 75-89):
`not gemeinde_set - unique_gemeinden`, i.e. the candidate's key set contains
the whole input set. -/
def checkGemeindestand (cat : Catalog) (candidate : Nat) (s : Finset Nat) : Bool :=
  decide (s \ gmdeKeySet cat candidate = ∅)

/-- `df.loc[df[code_column] == code, name_column].values[0]`: the name in the
first row carrying the given code (total with a default; in
`find_gemeindestand` the code always comes from some row). -/
def firstNameFor (rows : List (Nat × String)) (c : Nat) : String :=
  ((rows.find? (fun r => r.1 = c)).map Prod.snd).getD ""

/-- `_check_for_non_bfs_codes` (code_mapper.py lines 91-124). When wrong codes
exist it strips them and builds the code→name dict of wrong codes (CPython's
unspecified set iteration order is fixed here as first appearance in the
data). When no wrong code exists, `wrong_codes_dict` was never assigned and
the `return` raises `UnboundLocalError`. -/
def checkForNonBfsCodes (cat : Catalog) (rows : List (Nat × String)) (s : Finset Nat) :
    Except FgErr (Finset Nat × List (Nat × String)) :=
  let wrong := s \ allHistoricalCodes cat
  if 0 < wrong.card then
    let cleaned := s \ wrong
    let iterOrder := ((rows.map Prod.fst).dedup).filter (fun c => c ∈ wrong)
    .ok (cleaned, iterOrder.map (fun c => (c, firstNameFor rows c)))
  else
    .error .unboundLocal

/-- Python dict insertion: update in place when the key exists, append
otherwise. -/
def dinsert {α β : Type} [DecidableEq α] (k : α) (v : β) (d : List (α × β)) :
    List (α × β) :=
  if d.any (fun p => decide (p.1 = k)) then
    d.map (fun p => if p.1 = k then (k, v) else p)
  else d ++ [(k, v)]

/-- A Python dict built from a list of key/value pairs (later pairs win on a
duplicate key, as in a dict comprehension). -/
def dictOfList {α β : Type} [DecidableEq α] (l : List (α × β)) : List (α × β) :=
  l.foldl (fun d p => dinsert p.1 p.2 d) []

/-- The name→code inversion `{v: k for k, v in self.gmde_dct.get(...).items()}`
of a state's dict (`correct_dict` in `_correct_wrong_codes`); on duplicate
names the later code wins, as in the Python comprehension. -/
def nameToCode (cat : Catalog) (stand : Nat) : List (String × Nat) :=
  dictOfList ((gmdeGet cat stand).map (fun p => (p.2, p.1)))

/-- `_correct_wrong_codes` (code_mapper.py lines 126-141): invert the inferred
state's code→name dict into name→code, invert the wrong-codes dict into
name→wrong-code, and send each surviving wrong code to the state's code for
its name, defaulting to itself. -/
def correctWrongCodes (cat : Catalog) (stand : Nat) (wrongDict : List (Nat × String)) :
    List (Nat × Nat) :=
  let correctDict : List (String × Nat) := nameToCode cat stand
  let wrongInv : List (String × Nat) :=
    dictOfList (wrongDict.map (fun p => (p.2, p.1)))
  dictOfList (wrongInv.map (fun p => (p.2, (List.lookup p.1 correctDict).getD p.2)))

/-- `_infer_gemeindestand` (code_mapper.py lines 229-245): scan the catalog
dates newest to oldest and return the first whose key set contains the input
set; `ValueError` when the scan is exhausted. -/
def inferGemeindestand (cat : Catalog) (s : Finset Nat) : Except FgErr Nat :=
  match ((cat.map GState.date).reverse).find? (fun d => checkGemeindestand cat d s) with
  | some d => .ok d
  | none => .error .stateNotFound

/-- `self.data[self.data['anz_gmde'] == num_gmde]['gemeindestand'].values`:
the dates of all catalog states whose municipality count equals the input
cardinality (code_mapper.py lines 274-276). -/
def candidatesFor (cat : Catalog) (numGmde : Nat) : List Nat :=
  (cat.filter (fun st => anzGmde st = numGmde)).map GState.date

/-- `find_gemeindestand` (code_mapper.py lines 247-296). The caller data is a
list of (code, name) rows; the result is the found date together with the
optional corrections dict, or the Python exception that escapes. -/
def findGemeindestand (cat : Catalog) (rows : List (Nat × String)) :
    Except FgErr (Nat × Option (List (Nat × Nat))) :=
  let s0 : Finset Nat := (rows.map Prod.fst).toFinset
  let s1 := checkForUnpoulatedAreas s0
  let numGmde := s1.card
  match checkForNonBfsCodes cat rows s1 with
  | .error e => .error e
  | .ok (s2, wrongDict) =>
    let candidates := candidatesFor cat numGmde
    let viaCount : Option Nat :=
      if candidates.length = 1 then
        if checkGemeindestand cat (candidates.headD 0) s2 then
          some (candidates.headD 0)
        else none
      else if 1 < candidates.length then
        candidates.find? (fun c => checkGemeindestand cat c s2)
      else none
    match viaCount with
    | some d => .ok (d, none)
    | none =>
      match inferGemeindestand cat s2 with
      | .ok d => .ok (d, some (correctWrongCodes cat d wrongDict))
      | .error _ => .error .stateNotFound

/-- Concrete catalog for the C1 scenario: one state, date 10, codes 261-263. -/
def catC1 : Catalog :=
  [⟨10, [(261, "A"), (262, "B"), (263, "C")]⟩]

/-- Caller data whose code set exactly equals the catC1 state's code set. -/
def rowsC1 : List (Nat × String) :=
  [(261, "A"), (262, "B"), (263, "C")]

/-- C1: for an input DataFrame whose filtered code set exactly equals the
code set of a catalog state, the claim says `find_gemeindestand` returns that
state's date with a null CorrectionMap and does not raise. The code instead
raises `UnboundLocalError`: with no wrong codes present,
`_check_for_non_bfs_codes` never assigns `wrong_codes_dict`, so its `return`
statement fails before the cardinality match is ever reached. -/
theorem c1_exact_match_raises_unbound_local :
    findGemeindestand catC1 rowsC1 = .error .unboundLocal := by decide

/-- Two-state catalog for the C7 scenario: no single state contains both
codes 1 and 2. -/
def catC7 : Catalog :=
  [⟨1, [(1, "A")]⟩, ⟨2, [(2, "B")]⟩]

/-- Caller data mixing codes of the two catC7 states; every code is
historically known, so the input is clean. -/
def rowsC7 : List (Nat × String) :=
  [(1, "A"), (2, "B")]

/-- C7: the claim says `find_gemeindestand` raises StateNotFound if and only
if no catalog state's code set contains the cleaned input set. Here no state
contains the cleaned set {1, 2}, yet the code raises `UnboundLocalError`
(from `_check_for_non_bfs_codes`, since the input has no never-issued codes)
instead of the claimed StateNotFound: the backward scan is never reached. -/
theorem c7_clean_uncontained_raises_unbound_local :
    findGemeindestand catC7 rowsC7 = .error .unboundLocal ∧
      ∀ st ∈ catC7, ¬ ({1, 2} : Finset Nat) ⊆ (gmdeKeys st).toFinset := by
  constructor
  · decide
  · decide

/-- Python dict insertion appends when the key is absent. -/
theorem dinsert_of_not_mem {α β : Type} [DecidableEq α] (k : α) (v : β)
    (d : List (α × β)) (h : ∀ p ∈ d, p.1 ≠ k) :
    dinsert k v d = d ++ [(k, v)] := by
  unfold dinsert
  rw [if_neg]
  simp only [List.any_eq_true, decide_eq_true_eq, not_exists]
  intro p hp
  exact h p hp.1 hp.2

/-- Folding Python dict insertions over pairs with fresh keys appends them
all. -/
theorem foldl_dinsert_append {α β : Type} [DecidableEq α] (l : List (α × β)) :
    ∀ acc : List (α × β), (acc.map Prod.fst ++ l.map Prod.fst).Nodup →
      l.foldl (fun d p => dinsert p.1 p.2 d) acc = acc ++ l := by
  induction l with
  | nil =>
    intro acc _
    simp
  | cons p t ih =>
    intro acc h
    have hrearr : (acc.map Prod.fst ++ p.1 :: t.map Prod.fst).Nodup := by
      simpa using h
    have hdisj : (acc.map Prod.fst).Disjoint (p.1 :: t.map Prod.fst) :=
      ((List.nodup_append).mp hrearr).2.2
    have hk : ∀ q ∈ acc, q.1 ≠ p.1 := by
      intro q hq he
      exact hdisj (List.mem_map_of_mem Prod.fst hq) (by rw [he]; exact List.mem_cons_self _ _)
    rw [List.foldl_cons, dinsert_of_not_mem p.1 p.2 acc hk]
    have hnext : ((acc ++ [p]).map Prod.fst ++ t.map Prod.fst).Nodup := by
      simp only [List.map_append, List.map_cons, List.map_nil, List.append_assoc,
        List.singleton_append]
      simpa using hrearr
    rw [ih (acc ++ [p]) hnext]
    simp

/-- A Python dict built from pairs with pairwise distinct keys is that list
itself. -/
theorem dictOfList_eq_self {α β : Type} [DecidableEq α] (l : List (α × β))
    (h : (l.map Prod.fst).Nodup) : dictOfList l = l := by
  unfold dictOfList
  have := foldl_dinsert_append l [] (by simpa using h)
  simpa using this

/-- Looking a key up in a key-preserving image of a dict with distinct keys
recovers the image of that entry. -/
theorem lookup_map_of_nodup {α β γ : Type} [BEq α] [LawfulBEq α]
    (l : List (α × β)) (g : α × β → γ) (h : (l.map Prod.fst).Nodup) :
    ∀ p ∈ l, List.lookup p.1 (l.map (fun q => (q.1, g q))) = some (g p) := by
  induction l with
  | nil =>
    intro p hp
    cases hp
  | cons q t ih =>
    intro p hp
    simp only [List.map_cons, List.lookup_cons]
    rcases List.mem_cons.mp hp with hpq | hpt
    · subst hpq
      simp
    · have hne : p.1 ≠ q.1 := by
        intro he
        have : q.1 ∈ t.map Prod.fst := by
          rw [← he]
          exact List.mem_map_of_mem Prod.fst hpt
        exact (List.nodup_cons.mp (by simpa using h)).1 this
      have hbeq : (p.1 == q.1) = false := beq_eq_false_iff_ne.mpr hne
      rw [hbeq]
      exact ih (by simpa using (List.nodup_cons.mp (by simpa using h)).2) p hpt

/-- One-state catalog for the C9 scenarios: date 10, single code 261 named
"X". -/
def catC9 : Catalog :=
  [⟨10, [(261, "X")]⟩]

/-- C9: the claim says the correction builder drops no entry. When two wrong
codes carry the same recorded name, the inversion
`{v: k for k, v in wrong_codes_dict.items()}` keeps only the later code, so
the entry for the earlier wrong code 9001 disappears from the returned map
even though its name "X" resolves to the valid code 261. -/
theorem c9_counterexample_duplicate_name_drops_entry :
    List.lookup 9001 (correctWrongCodes catC9 10 [(9001, "X"), (9002, "X")]) = none := by
  decide

/-- C9 (amended): for every inferred state and every WrongCodes map whose
entries have pairwise distinct wrong codes and pairwise distinct recorded
names, the correction builder maps each wrong code to the code its recorded
name has in the inferred state's name→code table when the name occurs there,
and to itself otherwise; no entry is dropped. -/
theorem c9_amended_correction_builder (cat : Catalog) (stand : Nat)
    (wrong : List (Nat × String))
    (hcodes : (wrong.map Prod.fst).Nodup)
    (hnames : (wrong.map Prod.snd).Nodup) :
    ∀ p ∈ wrong,
      List.lookup p.1 (correctWrongCodes cat stand wrong) =
        some ((List.lookup p.2 (nameToCode cat stand)).getD p.1) := by
  intro p hp
  unfold correctWrongCodes
  dsimp only
  have hinv : dictOfList (wrong.map (fun q => (q.2, q.1))) =
      wrong.map (fun q => (q.2, q.1)) := by
    apply dictOfList_eq_self
    simp only [List.map_map]
    simpa [Function.comp] using hnames
  rw [hinv, List.map_map]
  have hfun : ((fun p => (p.2, (List.lookup p.1 (nameToCode cat stand)).getD p.2)) ∘
      fun q : Nat × String => (q.2, q.1)) =
      fun q : Nat × String => (q.1, (List.lookup q.2 (nameToCode cat stand)).getD q.1) := by
    funext q
    rfl
  rw [hfun]
  have houter : dictOfList
      (wrong.map (fun q => (q.1, (List.lookup q.2 (nameToCode cat stand)).getD q.1))) =
      wrong.map (fun q => (q.1, (List.lookup q.2 (nameToCode cat stand)).getD q.1)) := by
    apply dictOfList_eq_self
    simp only [List.map_map]
    simpa [Function.comp] using hcodes
  rw [houter]
  exact lookup_map_of_nodup wrong
    (fun q => (List.lookup q.2 (nameToCode cat stand)).getD q.1) hcodes p hp

/-- Filtering leaves a set untouched when it holds no shared-territory code
and no code >= 7000. -/
theorem checkForUnpoulatedAreas_id (s : Finset Nat)
    (h : ∀ x ∈ s, x ∉ gmdeFreieGeb ∧ x < 7000) :
    checkForUnpoulatedAreas s = s := by
  unfold checkForUnpoulatedAreas
  dsimp only
  have h1 : s.filter (fun c => c ∈ gmdeFreieGeb) = ∅ := by
    rw [Finset.filter_eq_empty_iff]
    intro x hx
    exact (h x hx).1
  rw [h1, Finset.sdiff_empty]
  have h2 : s.filter (fun c => 7000 ≤ c) = ∅ := by
    rw [Finset.filter_eq_empty_iff]
    intro x hx
    exact not_le.mpr (h x hx).2
  rw [h2, Finset.sdiff_empty]

/-- Every code of a catalog state is historically known. -/
theorem mem_allHistorical_of_mem_keys (cat : Catalog) (S : GState) (hS : S ∈ cat) :
    ∀ x ∈ (gmdeKeys S).toFinset, x ∈ allHistoricalCodes cat := by
  intro x hx
  unfold allHistoricalCodes
  rw [List.mem_toFinset] at hx
  rw [List.mem_toFinset, List.mem_flatMap]
  exact ⟨S, hS, hx⟩

/-- The key set of a state equals its `anz_gmde` count in cardinality. -/
theorem card_keys_eq_anzGmde (S : GState) :
    (gmdeKeys S).toFinset.card = anzGmde S := by
  unfold anzGmde
  exact List.toFinset_card_of_nodup (List.nodup_dedup _)

/-- Caller data for the C2 scenario: the catC1 state's code set with the
valid code 263 replaced by the never-issued code 4444 carrying the same name
"C". -/
def rowsC2 : List (Nat × String) :=
  [(261, "A"), (262, "B"), (4444, "C")]

/-- C2: the claim says `find_gemeindestand` returns the corrupted set's state
together with a non-null CorrectionMap sending 4444 back to 263. The code
instead strips 4444 in `_check_for_non_bfs_codes` *before* the cardinality
match, which then succeeds on the cleaned set and returns a null
CorrectionMap, so no correction is ever reported. -/
theorem c2_counterexample_null_correction :
    findGemeindestand catC1 rowsC2 = .ok (10, none) := by decide

/-- C2 (amended): for a code set formed by replacing one valid code of a
catalog state with a never-issued, non-reserved code, when that state is the
unique catalog state whose municipality count equals the input cardinality,
`find_gemeindestand` returns that same state but with a *null* CorrectionMap:
the never-issued code is stripped by the cleanup before the cardinality
match, which then succeeds on the cleaned set, so no correction is built and
the matching name in the caller's data is never consulted. -/
theorem c2_amended_fake_code_stripped_before_count_match
    (cat : Catalog) (S : GState) (rows : List (Nat × String)) (c f : Nat)
    (hdate : cat.find? (fun st => st.date = S.date) = some S)
    (hS : S ∈ cat)
    (hcand : candidatesFor cat (anzGmde S) = [S.date])
    (hc : c ∈ (gmdeKeys S).toFinset)
    (hf : f ∉ allHistoricalCodes cat)
    (hrows : (rows.map Prod.fst).toFinset = (gmdeKeys S).toFinset \ {c} ∪ {f})
    (hclean : ∀ x ∈ (gmdeKeys S).toFinset \ {c} ∪ {f}, x ∉ gmdeFreieGeb ∧ x < 7000) :
    findGemeindestand cat rows = .ok (S.date, none) := by
  have hfA : f ∉ (gmdeKeys S).toFinset := fun hmem =>
    hf (mem_allHistorical_of_mem_keys cat S hS f hmem)
  have hsub : ({c} : Finset Nat) ⊆ (gmdeKeys S).toFinset :=
    Finset.singleton_subset_iff.mpr hc
  have hcard : ((gmdeKeys S).toFinset \ {c} ∪ {f}).card = anzGmde S := by
    have hdisj : Disjoint ((gmdeKeys S).toFinset \ {c}) ({f} : Finset Nat) := by
      rw [Finset.disjoint_singleton_right, Finset.mem_sdiff]
      intro hx
      exact hfA hx.1
    rw [Finset.card_union_of_disjoint hdisj, Finset.card_sdiff hsub]
    simp only [Finset.card_singleton]
    have hA := card_keys_eq_anzGmde S
    have hApos : 1 ≤ (gmdeKeys S).toFinset.card := Finset.card_pos.mpr ⟨c, hc⟩
    omega
  have hwrong : ((gmdeKeys S).toFinset \ {c} ∪ {f}) \ allHistoricalCodes cat =
      {f} := by
    ext x
    simp only [Finset.mem_sdiff, Finset.mem_union, Finset.mem_singleton]
    constructor
    · rintro ⟨hx | hx, hnh⟩
      · exact absurd (mem_allHistorical_of_mem_keys cat S hS x hx.1) hnh
      · exact hx
    · rintro rfl
      exact ⟨Or.inr rfl, hf⟩
  have hcleaned : ((gmdeKeys S).toFinset \ {c} ∪ {f}) \ {f} =
      (gmdeKeys S).toFinset \ {c} := by
    ext x
    simp only [Finset.mem_sdiff, Finset.mem_union, Finset.mem_singleton]
    constructor
    · rintro ⟨hx | rfl, hne⟩
      · exact hx
      · exact absurd rfl hne
    · intro hx
      refine ⟨Or.inl hx, fun he => ?_⟩
      subst he
      exact hfA hx.1
  have hs1 : checkForUnpoulatedAreas ((rows.map Prod.fst).toFinset) =
      (gmdeKeys S).toFinset \ {c} ∪ {f} := by
    rw [hrows]
    exact checkForUnpoulatedAreas_id _ hclean
  have hwd : checkForNonBfsCodes cat rows ((gmdeKeys S).toFinset \ {c} ∪ {f}) =
      .ok ((gmdeKeys S).toFinset \ {c},
        (((rows.map Prod.fst).dedup).filter (fun x => x ∈ ({f} : Finset Nat))).map
          (fun x => (x, firstNameFor rows x))) := by
    unfold checkForNonBfsCodes
    rw [hwrong]
    simp [hcleaned]
  have hkeyset : gmdeKeySet cat S.date = (gmdeKeys S).toFinset := by
    unfold gmdeKeySet gmdeGet gmdeKeys
    rw [hdate]
    ext x
    simp
  have hcheck : checkGemeindestand cat S.date ((gmdeKeys S).toFinset \ {c}) =
      true := by
    unfold checkGemeindestand
    rw [hkeyset]
    simp only [decide_eq_true_eq, Finset.sdiff_eq_empty_iff_subset]
    exact Finset.sdiff_subset
  unfold findGemeindestand
  dsimp only
  rw [hs1, hcard, hwd, hcand]
  simp [hcheck]

/-- C2 witness: the concrete corrupted input rowsC2 against catC1, where the
state of date 10 is the unique three-municipality state; the call returns
date 10 with a null correction. -/
theorem c2_amended_witness :
    findGemeindestand catC1 rowsC2 = .ok (10, none) :=
  c2_amended_fake_code_stripped_before_count_match catC1
    ⟨10, [(261, "A"), (262, "B"), (263, "C")]⟩ rowsC2 263 4444
    (by decide) (by decide) (by decide) (by decide) (by decide) (by decide)
    (by decide)

/-- C9 witness: a two-entry WrongCodes map with distinct codes and names,
resolved against catC9; the entry for 9001 survives and resolves through the
name "X". -/
theorem c9_amended_witness :
    List.lookup 9001 (correctWrongCodes catC9 10 [(9001, "X"), (9002, "Y")]) =
      some ((List.lookup "X" (nameToCode catC9 10)).getD 9001) :=
  c9_amended_correction_builder catC9 10 [(9001, "X"), (9002, "Y")]
    (by decide) (by decide) (9001, "X") (by decide)

/-- One parsed row of a fetched correspondence CSV, i.e. the columns
`InitialCode`, `InitialName`, `TerminalCode`, `TerminalName` selected by
`create_multi_mapping` (code_mapper.py line 436). -/
structure Edge where
  initialCode : Nat
  initialName : String
  terminalCode : Nat
  terminalName : String
deriving DecidableEq, Repr

/-- A row of the wide multi-hop table: one (code, name) cell per hop state in
chronological order (the per-hop column groups `bfs_gmde_code_<date>` /
`bfs_gmde_name_<date>`), `none` where a left join had no match. -/
abbrev MRow := List (Option (Nat × String))

/-- The running table seeded from the first hop's mapping (the
`full_mapping is None` branch of the fold, code_mapper.py line 445-446). -/
def initTable (es : List Edge) : List MRow :=
  es.map (fun e =>
    [some (e.initialCode, e.initialName), some (e.terminalCode, e.terminalName)])

/-- The fate of one running-table row under
`full_mapping.merge(mapping, on=[code_prev, name_prev], how='left')`: the
join key is the previous hop's (code, name) pair, i.e. the row's last cell; a
null key or an unmatched key keeps the row once with a null new cell, and k
matching edges replicate the row k times. -/
def expandRow (es : List Edge) (row : MRow) : List MRow :=
  match row.getLast? with
  | none => [row ++ [none]]
  | some none => [row ++ [none]]
  | some (some (c, n)) =>
    let ms := es.filter (fun e => decide (e.initialCode = c) && decide (e.initialName = n))
    if ms.isEmpty then [row ++ [none]]
    else ms.map (fun e => row ++ [some (e.terminalCode, e.terminalName)])

/-- The left join of one hop's mapping onto the running table
(code_mapper.py lines 448-452). -/
def joinHop (tbl : List MRow) (es : List Edge) : List MRow :=
  tbl.flatMap (expandRow es)

/-- One step of `full_mapping = None; for mapping in mappings: ...`
(code_mapper.py lines 431-454): seed on the first mapping, left-join each
later one. -/
def foldStep (full : Option (List MRow)) (es : List Edge) : Option (List MRow) :=
  match full with
  | none => some (initTable es)
  | some t => some (joinHop t es)

/-- The whole fold over the fetched mappings, in list order; `none` is the
Python `None` returned when there is no hop at all. -/
def foldMappings (mappings : List (List Edge)) : Option (List MRow) :=
  mappings.foldl foldStep none

/-- The chained table for a non-empty list of hop mappings. -/
def multiChain (t0 : List Edge) (rest : List (List Edge)) : List MRow :=
  rest.foldl joinHop (initTable t0)

/-- The `return_names=False` projection (code_mapper.py lines 456-459):
dropping every name-bearing column keeps exactly the code component of each
hop cell. The claims below are all stated on the full table. -/
def dropNameCols (t : List MRow) : List (List (Option Nat)) :=
  t.map (fun row => row.map (Option.map Prod.fst))

/-- Rows produced by expanding one row are that row extended by one cell. -/
theorem expandRow_shape (es : List Edge) (row : MRow) :
    ∀ r' ∈ expandRow es row, ∃ x, r' = row ++ [x] := by
  intro r' hr'
  unfold expandRow at hr'
  rcases hlast : row.getLast? with _ | x
  · rw [hlast] at hr'
    simp at hr'
    exact ⟨none, hr'⟩
  · rw [hlast] at hr'
    rcases x with _ | ⟨c, n⟩
    · simp at hr'
      exact ⟨none, hr'⟩
    · dsimp at hr'
      by_cases hms :
          (es.filter (fun e => decide (e.initialCode = c) && decide (e.initialName = n))).isEmpty
      · rw [if_pos hms] at hr'
        simp at hr'
        exact ⟨none, hr'⟩
      · rw [if_neg hms] at hr'
        rcases List.mem_map.mp hr' with ⟨e, _, he⟩
        exact ⟨some (e.terminalCode, e.terminalName), he.symm⟩

/-- Expanding a row never deletes it: the result is non-empty. -/
theorem expandRow_ne_nil (es : List Edge) (row : MRow) :
    expandRow es row ≠ [] := by
  unfold expandRow
  rcases hlast : row.getLast? with _ | x
  · simp
  · rcases x with _ | ⟨c, n⟩
    · simp
    · dsimp
      by_cases hms :
          (es.filter (fun e => decide (e.initialCode = c) && decide (e.initialName = n))).isEmpty
      · rw [if_pos hms]
        simp
      · rw [if_neg hms]
        simp only [ne_eq, List.map_eq_nil_iff]
        intro hnil
        rw [hnil] at hms
        exact hms rfl

/-- Appending one cell to a non-empty row keeps its first cell. -/
theorem head?_append_single (row : MRow) (x : Option (Nat × String))
    (h : row ≠ []) : (row ++ [x]).head? = row.head? := by
  cases row with
  | nil => exact absurd rfl h
  | cons a t => rfl

/-- A row satisfying the first-cell predicate contributes at least one such
row to its expansion. -/
theorem countP_expandRow (es : List Edge) (row : MRow) (X : Option (Nat × String))
    (h : row ≠ []) :
    (if row.head? = some X then 1 else 0) ≤
      (expandRow es row).countP (fun r => decide (r.head? = some X)) := by
  by_cases hX : row.head? = some X
  · rw [if_pos hX]
    obtain ⟨r', hr'⟩ := List.exists_mem_of_ne_nil _ (expandRow_ne_nil es row)
    have hpos : 0 < (expandRow es row).countP (fun r => decide (r.head? = some X)) := by
      rw [List.countP_pos_iff]
      refine ⟨r', hr', ?_⟩
      obtain ⟨x, hx⟩ := expandRow_shape es row r' hr'
      rw [hx, head?_append_single row x h, hX]
      simp
    omega
  · rw [if_neg hX]
    exact Nat.zero_le _

/-- The left join of a hop never decreases the number of rows carrying a
given first cell. -/
theorem joinHop_countP (es : List Edge) (X : Option (Nat × String)) :
    ∀ tbl : List MRow, (∀ r ∈ tbl, r ≠ []) →
      tbl.countP (fun r => decide (r.head? = some X)) ≤
        (joinHop tbl es).countP (fun r => decide (r.head? = some X)) := by
  intro tbl
  induction tbl with
  | nil =>
    intro _
    simp [joinHop]
  | cons r t ih =>
    intro h
    unfold joinHop
    rw [List.flatMap_cons, List.countP_append, List.countP_cons]
    have h1 := countP_expandRow es r X (h r (List.mem_cons_self r t))
    have h2 := ih (fun q hq => h q (List.mem_cons_of_mem r hq))
    unfold joinHop at h2
    have hle : (if decide (r.head? = some X) = true then 1 else 0) ≤
        (if r.head? = some X then 1 else 0) := by
      by_cases hc : r.head? = some X <;> simp [hc]
    omega

/-- The left join keeps every row non-empty. -/
theorem joinHop_rows_ne_nil (tbl : List MRow) (es : List Edge)
    (h : ∀ r ∈ tbl, r ≠ []) : ∀ r' ∈ joinHop tbl es, r' ≠ [] := by
  intro r' hr'
  rcases List.mem_flatMap.mp hr' with ⟨r, hr, hmem⟩
  obtain ⟨x, hx⟩ := expandRow_shape es r r' hmem
  rw [hx]
  simp

/-- Folding further hops keeps every row non-empty. -/
theorem fold_rows_ne_nil (rest : List (List Edge)) :
    ∀ tbl : List MRow, (∀ r ∈ tbl, r ≠ []) →
      ∀ r ∈ rest.foldl joinHop tbl, r ≠ [] := by
  induction rest with
  | nil =>
    intro tbl h r hr
    exact h r hr
  | cons es rest ih =>
    intro tbl h
    rw [List.foldl_cons]
    exact ih (joinHop tbl es) (joinHop_rows_ne_nil tbl es h)

/-- Folding further hops never decreases the count of rows carrying a given
first cell. -/
theorem fold_countP (X : Option (Nat × String)) (rest : List (List Edge)) :
    ∀ tbl : List MRow, (∀ r ∈ tbl, r ≠ []) →
      tbl.countP (fun r => decide (r.head? = some X)) ≤
        (rest.foldl joinHop tbl).countP (fun r => decide (r.head? = some X)) := by
  induction rest with
  | nil =>
    intro tbl _
    simp
  | cons es rest ih =>
    intro tbl h
    rw [List.foldl_cons]
    exact le_trans (joinHop_countP es X tbl h)
      (ih (joinHop tbl es) (joinHop_rows_ne_nil tbl es h))

/-- Every row of the running table survives the remaining fold as a prefix of
some output row. -/
theorem fold_preserves_rows (rest : List (List Edge)) :
    ∀ tbl : List MRow, (∀ r ∈ tbl, r ≠ []) →
      ∀ r ∈ tbl, ∃ ext, r ++ ext ∈ rest.foldl joinHop tbl := by
  induction rest with
  | nil =>
    intro tbl _ r hr
    exact ⟨[], by simpa using hr⟩
  | cons es rest ih =>
    intro tbl h r hr
    rw [List.foldl_cons]
    obtain ⟨r', hr'⟩ := List.exists_mem_of_ne_nil _ (expandRow_ne_nil es r)
    obtain ⟨x, hx⟩ := expandRow_shape es r r' hr'
    have hmem : r' ∈ joinHop tbl es :=
      List.mem_flatMap.mpr ⟨r, hr, hr'⟩
    obtain ⟨ext, hext⟩ := ih (joinHop tbl es)
      (joinHop_rows_ne_nil tbl es h) r' hmem
    refine ⟨[x] ++ ext, ?_⟩
    rw [← List.append_assoc, ← hx]
    exact hext

/-- Every seeded row is a two-cell row. -/
theorem initTable_rows_ne_nil (t0 : List Edge) :
    ∀ r ∈ initTable t0, r ≠ [] := by
  intro r hr
  rcases List.mem_map.mp hr with ⟨e, _, he⟩
  rw [← he]
  simp

/-- Seeding translates the per-edge origin count into the per-row first-cell
count. -/
theorem countP_initTable (t0 : List Edge) (c : Nat) (nm : String) :
    (initTable t0).countP (fun r => decide (r.head? = some (some (c, nm)))) =
      t0.countP (fun e => decide ((e.initialCode, e.initialName) = (c, nm))) := by
  unfold initTable
  rw [List.countP_map]
  apply List.countP_congr
  intro e _
  simp [Function.comp]

/-- The Python fold over a non-empty mapping list seeds on the first table
and chains the rest. -/
theorem foldMappings_cons (t0 : List Edge) (rest : List (List Edge)) :
    foldMappings (t0 :: rest) = some (multiChain t0 rest) := by
  unfold foldMappings multiChain
  rw [List.foldl_cons]
  have haux : ∀ (l : List (List Edge)) (tbl : List MRow),
      l.foldl foldStep (some tbl) = some (l.foldl joinHop tbl) := by
    intro l
    induction l with
    | nil =>
      intro tbl
      rfl
    | cons es l ih =>
      intro tbl
      rw [List.foldl_cons, List.foldl_cons]
      exact ih (joinHop tbl es)
  exact haux rest (initTable t0)

/-- C3: the composer's fold seeds on the first hop table and left-joins each
later hop onto the running table keyed by the previous hop's (code, name)
cell; every first-hop row survives as a prefix of some output row, so every
origin (code, name) occurring k times in the first hop table occurs at least
k times as the first cell of output rows — in particular every origin code
of the first hop appears at least once, and a code splitting into several
edges yields several output rows. -/
theorem c3_fold_left_join_preserves_first_hop (t0 : List Edge)
    (rest : List (List Edge)) :
    foldMappings (t0 :: rest) = some (multiChain t0 rest) ∧
    (∀ c nm,
      t0.countP (fun e => decide ((e.initialCode, e.initialName) = (c, nm))) ≤
        (multiChain t0 rest).countP
          (fun r => decide (r.head? = some (some (c, nm))))) ∧
    (∀ e ∈ t0, ∃ ext,
      [some (e.initialCode, e.initialName),
        some (e.terminalCode, e.terminalName)] ++ ext ∈ multiChain t0 rest) := by
  refine ⟨foldMappings_cons t0 rest, ?_, ?_⟩
  · intro c nm
    rw [← countP_initTable t0 c nm]
    exact fold_countP (some (c, nm)) rest (initTable t0) (initTable_rows_ne_nil t0)
  · intro e he
    have hr : [some (e.initialCode, e.initialName),
        some (e.terminalCode, e.terminalName)] ∈ initTable t0 :=
      List.mem_map.mpr ⟨e, he, rfl⟩
    exact fold_preserves_rows rest (initTable t0) (initTable_rows_ne_nil t0) _ hr

/-- C3 witness: for the two-hop chain 1→2→3 the first-hop row (1,A)(2,B)
survives as a prefix of an output row. -/
theorem c3_witness :
    ∃ ext, [some ((1 : Nat), "A"), some ((2 : Nat), "B")] ++ ext ∈
      multiChain [⟨1, "A", 2, "B"⟩] [[⟨2, "B", 3, "C"⟩]] :=
  (c3_fold_left_join_preserves_first_hop [⟨1, "A", 2, "B"⟩]
    [[⟨2, "B", 3, "C"⟩]]).2.2 ⟨1, "A", 2, "B"⟩ (by decide)

/-- Date preference of `_nearest` / `_find_closest_official_gemeindestand`:
"nearest", "smaller", "larger". -/
inductive Pref where
  | near
  | smaller
  | larger
deriving DecidableEq, Repr

/-- Python's `min(xs, key=f)`: the first element with minimal key. -/
def pyMinBy (f : Nat → Nat) (x : Nat) (xs : List Nat) : Nat :=
  xs.foldl (fun acc y => if f y < f acc then y else acc) x

/-- Python's `max(xs, default=None)` over distinct dates. -/
def pyMax (xs : List Nat) : Option Nat :=
  match xs with
  | [] => none
  | x :: t => some (t.foldl (fun acc y => if acc < y then y else acc) x)

/-- Python's `min(xs, default=None)` over distinct dates. -/
def pyMin (xs : List Nat) : Option Nat :=
  match xs with
  | [] => none
  | x :: t => some (t.foldl (fun acc y => if y < acc then y else acc) x)

/-- The `prefer="nearest"` branch of `_nearest` (code_mapper.py lines
165-168); `none` is the `ValueError` of `min` on an empty catalog. -/
def nearestAny (dates : List Nat) (target : Nat) : Option Nat :=
  match dates with
  | [] => none
  | x :: t => some (pyMinBy (fun d => Nat.dist d target) x t)

/-- `_nearest` (code_mapper.py lines 143-190): closest date under the given
preference, falling back to "nearest" when no date lies on the preferred
side. -/
def nearestDate (dates : List Nat) (target : Nat) : Pref → Option Nat
  | .near => nearestAny dates target
  | .smaller =>
    match pyMax (dates.filter (fun d => d ≤ target)) with
    | some c => some c
    | none => nearestAny dates target
  | .larger =>
    match pyMin (dates.filter (fun d => target ≤ d)) with
    | some c => some c
    | none => nearestAny dates target

/-- `_find_closest_official_gemeindestand` (code_mapper.py lines 192-227):
a date already in the catalog is returned unchanged, otherwise it is snapped
by `_nearest`. -/
def findClosest (dates : List Nat) (given : Nat) (prefer : Pref) : Option Nat :=
  if given ∈ dates then some given
  else nearestDate dates given prefer

/-- Python's `list.index` (first occurrence; the out-of-list default is
unreachable at its call sites, where the element was just snapped into the
catalog). -/
def pyIndex (x : Nat) : List Nat → Nat
  | [] => 0
  | y :: ys => if y = x then 0 else pyIndex x ys + 1

/-- The list-comprehension snap of an explicit target list
(code_mapper.py lines 378-381). -/
def snapAll (dates : List Nat) : List Nat → Option (List Nat)
  | [] => some []
  | t :: ts =>
    match findClosest dates t .near with
    | none => none
    | some s =>
      match snapAll dates ts with
      | none => none
      | some rest => some (s :: rest)

/-- The target argument of `create_multi_mapping`: an explicit list of dates
or an inclusive 2-element range (`_validate_and_transform_targets` asserts
exactly two values for a tuple, which the `range` constructor carries by
construction). -/
inductive TargetSpec where
  | list (ts : List Nat)
  | range (a b : Nat)
deriving DecidableEq, Repr

/-- `_validate_and_transform_targets` (code_mapper.py lines 349-384): snap a
range's ends (start to the smaller side, end to the larger side) and take the
catalog slice between them, or snap each date of an explicit list to the
nearest state. -/
def validateAndTransformTargets (dates : List Nat) : TargetSpec → Option (List Nat)
  | .range a b =>
    match findClosest dates a .smaller with
    | none => none
    | some s =>
      match findClosest dates b .larger with
      | none => none
      | some e =>
        let i := pyIndex s dates
        let j := pyIndex e dates + 1
        some ((dates.drop i).take (j - i))
  | .list ts => snapAll dates ts

/-- Insertion into a chronologically sorted list. -/
def insertSorted (x : Nat) : List Nat → List Nat
  | [] => [x]
  | y :: ys => if x ≤ y then x :: y :: ys else y :: insertSorted x ys

/-- Python's `sorted` on dates (insertion sort; stability is irrelevant on
the distinct dates it is applied to). -/
def pySorted (l : List Nat) : List Nat :=
  l.foldr insertSorted []

/-- The hop-date sequence S built by `create_multi_mapping` lines 407-415:
snap the origin to the smaller side, validate the targets, append the origin
and form `sorted(set(...))`. -/
def sortedHopDates (dates : List Nat) (origin : Nat) (ts : TargetSpec) :
    Option (List Nat) :=
  match findClosest dates origin .smaller with
  | none => none
  | some o =>
    match validateAndTransformTargets dates ts with
    | none => none
    | some tg => some (pySorted ((tg ++ [o]).dedup))

/-- The fetch pairs issued by the loop of code_mapper.py lines 420-426: start
at the earliest hop date and advance `start_date` to each target in turn. -/
def fetchPairsFrom (start : Nat) : List Nat → List (Nat × Nat)
  | [] => []
  | t :: ts => (start, t) :: fetchPairsFrom t ts

/-- All fetch pairs of a hop-date sequence (`earliest_date` then the
remaining targets). -/
def hopPairs (s : List Nat) : List (Nat × Nat) :=
  match s with
  | [] => []
  | d0 :: rest => fetchPairsFrom d0 rest

/-- `create_multi_mapping` (code_mapper.py lines 386-460) with the
correspondence fetch abstracted as a deterministic function: build the
hop-date sequence, fetch one mapping per consecutive pair, and fold the
fetched tables in chronological order. The outer `none` is a snapping
failure (empty catalog); the inner `none` is the Python `None` returned when
there is no hop at all. -/
def createMultiMapping (dates : List Nat) (fetch : Nat → Nat → List Edge)
    (origin : Nat) (ts : TargetSpec) : Option (Option (List MRow)) :=
  match sortedHopDates dates origin ts with
  | none => none
  | some s => some (foldMappings ((hopPairs s).map (fun p => fetch p.1 p.2)))

/-- Membership through sorted insertion. -/
theorem mem_insertSorted (x : Nat) : ∀ (l : List Nat) (y : Nat),
    y ∈ insertSorted x l ↔ y = x ∨ y ∈ l := by
  intro l
  induction l with
  | nil =>
    intro y
    simp [insertSorted]
  | cons z t ih =>
    intro y
    unfold insertSorted
    by_cases hxz : x ≤ z
    · rw [if_pos hxz]
      simp [List.mem_cons]
    · rw [if_neg hxz]
      simp only [List.mem_cons, ih]
      tauto

/-- Sorted insertion preserves sortedness. -/
theorem insertSorted_sorted (x : Nat) : ∀ l : List Nat,
    List.Sorted (· ≤ ·) l → List.Sorted (· ≤ ·) (insertSorted x l) := by
  intro l
  induction l with
  | nil =>
    intro _
    simpa [insertSorted] using List.sorted_singleton x
  | cons z t ih =>
    intro h
    rcases List.sorted_cons.mp h with ⟨hz, ht⟩
    unfold insertSorted
    by_cases hxz : x ≤ z
    · rw [if_pos hxz]
      refine List.sorted_cons.mpr ⟨?_, h⟩
      intro b hb
      rcases List.mem_cons.mp hb with rfl | hb
      · exact hxz
      · exact le_trans hxz (hz b hb)
    · rw [if_neg hxz]
      refine List.sorted_cons.mpr ⟨?_, ih ht⟩
      intro b hb
      rcases (mem_insertSorted x t b).mp hb with rfl | hb
      · exact le_of_not_le hxz
      · exact hz b hb

/-- Sorted insertion is a permutation of consing. -/
theorem insertSorted_perm (x : Nat) : ∀ l : List Nat,
    (insertSorted x l).Perm (x :: l) := by
  intro l
  induction l with
  | nil =>
    simp [insertSorted]
  | cons z t ih =>
    unfold insertSorted
    by_cases hxz : x ≤ z
    · rw [if_pos hxz]
    · rw [if_neg hxz]
      exact (ih.cons z).trans (List.Perm.swap x z t)

/-- The Python sort is sorted. -/
theorem pySorted_sorted (l : List Nat) : List.Sorted (· ≤ ·) (pySorted l) := by
  induction l with
  | nil => exact List.sorted_nil
  | cons x t ih => exact insertSorted_sorted x (pySorted t) ih

/-- The Python sort permutes its input. -/
theorem pySorted_perm (l : List Nat) : (pySorted l).Perm l := by
  induction l with
  | nil => exact List.Perm.refl []
  | cons x t ih =>
    exact (insertSorted_perm x (pySorted t)).trans (ih.cons x)

/-- `sorted(set(...))` yields a strictly increasing (sorted, de-duplicated)
date sequence. -/
theorem pySorted_dedup_strict_sorted (l : List Nat) :
    List.Sorted (· < ·) (pySorted l.dedup) := by
  have hnd : (pySorted l.dedup).Nodup :=
    (pySorted_perm l.dedup).nodup_iff.mpr (List.nodup_dedup l)
  exact (pySorted_sorted l.dedup).lt_of_le hnd

/-- The fetch-pair loop hops exactly along consecutive elements. -/
theorem fetchPairsFrom_eq_zip (rest : List Nat) : ∀ start : Nat,
    fetchPairsFrom start rest = (start :: rest).zip rest := by
  induction rest with
  | nil =>
    intro start
    rfl
  | cons t ts ih =>
    intro start
    unfold fetchPairsFrom
    rw [ih t]
    rfl

/-- The fetch-pair loop issues one pair per target. -/
theorem fetchPairsFrom_length (rest : List Nat) : ∀ start : Nat,
    (fetchPairsFrom start rest).length = rest.length := by
  induction rest with
  | nil =>
    intro start
    rfl
  | cons t ts ih =>
    intro start
    unfold fetchPairsFrom
    rw [List.length_cons, ih t]
    rfl

/-- C4: whenever the hop-date sequence S of `create_multi_mapping` is built
(snapping and target validation succeed), S is chronologically strictly
sorted and de-duplicated, the issued fetch pairs are exactly the consecutive
pairs S[i], S[i+1] — |S|−1 fetches, never a non-consecutive pair — and the
result is the chronological left fold of the fetched tables in exactly that
hop order. -/
theorem c4_consecutive_pair_fetches (dates : List Nat)
    (fetch : Nat → Nat → List Edge) (origin : Nat) (ts : TargetSpec)
    (s : List Nat) (hs : sortedHopDates dates origin ts = some s) :
    List.Sorted (· < ·) s ∧
    hopPairs s = s.zip s.tail ∧
    (hopPairs s).length = s.length - 1 ∧
    createMultiMapping dates fetch origin ts =
      some (foldMappings ((s.zip s.tail).map (fun p => fetch p.1 p.2))) := by
  have hzip : hopPairs s = s.zip s.tail := by
    cases s with
    | nil => rfl
    | cons d0 rest =>
      show fetchPairsFrom d0 rest = (d0 :: rest).zip rest
      rw [fetchPairsFrom_eq_zip rest d0]
  have hsorted : List.Sorted (· < ·) s := by
    unfold sortedHopDates at hs
    rcases ho : findClosest dates origin .smaller with _ | o
    · rw [ho] at hs
      cases hs
    · rw [ho] at hs
      rcases htg : validateAndTransformTargets dates ts with _ | tg
      · rw [htg] at hs
        cases hs
      · rw [htg] at hs
        have := pySorted_dedup_strict_sorted (tg ++ [o])
        cases hs
        exact this
  refine ⟨hsorted, hzip, ?_, ?_⟩
  · cases s with
    | nil => rfl
    | cons d0 rest =>
      show (fetchPairsFrom d0 rest).length = (d0 :: rest).length - 1
      rw [fetchPairsFrom_length rest d0]
      rfl
  · unfold createMultiMapping
    rw [hs]
    dsimp only
    rw [hzip]

/-- C4 witness: catalog dates 5, 10, 20 with origin 12 (snapped down to 10)
and targets [20, 5]; the hop sequence is [5, 10, 20] with exactly the two
consecutive fetch pairs (5,10) and (10,20). -/
theorem c4_witness :
    List.Sorted (· < ·) [5, 10, 20] ∧
    hopPairs [5, 10, 20] = ([5, 10, 20].zip [10, 20]) ∧
    (hopPairs [5, 10, 20]).length = 2 ∧
    createMultiMapping [5, 10, 20] (fun _ _ => []) 12 (.list [20, 5]) =
      some (foldMappings (([5, 10, 20].zip [10, 20]).map (fun _ => []))) :=
  c4_consecutive_pair_fetches [5, 10, 20] (fun _ _ => []) 12 (.list [20, 5])
    [5, 10, 20] (by rfl)

/-- Python's `list.index` finds the first occurrence. -/
theorem pyIndex_append (x : Nat) : ∀ (l r : List Nat), x ∉ l →
    pyIndex x (l ++ x :: r) = l.length := by
  intro l
  induction l with
  | nil =>
    intro r _
    show pyIndex x (x :: r) = 0
    unfold pyIndex
    rw [if_pos rfl]
  | cons y t ih =>
    intro r h
    have hy : y ≠ x := fun he => h (by rw [he]; exact List.mem_cons_self x t)
    show pyIndex x (y :: (t ++ x :: r)) = t.length + 1
    unfold pyIndex
    rw [if_neg hy, ih r (fun hm => h (List.mem_cons_of_mem y hm))]

/-- C5: when the catalog is ... l1, D1, D2, D3, l2 ... (so the catalog states
from D1 through D3 inclusive are exactly [D1, D2, D3], taking first
occurrences), `create_multi_mapping` with the Range target (D1, D3) equals
`create_multi_mapping` with the List target [D1, D2, D3], for every origin
and every fetch function. -/
theorem c5_range_target_equals_list_target (l1 l2 : List Nat)
    (D0 D1 D2 D3 : Nat) (fetch : Nat → Nat → List Edge)
    (h1 : D1 ∉ l1) (h3 : D3 ∉ l1 ++ [D1, D2]) :
    createMultiMapping (l1 ++ [D1, D2, D3] ++ l2) fetch D0 (.range D1 D3) =
      createMultiMapping (l1 ++ [D1, D2, D3] ++ l2) fetch D0 (.list [D1, D2, D3]) := by
  have hm1 : D1 ∈ l1 ++ [D1, D2, D3] ++ l2 := by simp
  have hm2 : D2 ∈ l1 ++ [D1, D2, D3] ++ l2 := by simp
  have hm3 : D3 ∈ l1 ++ [D1, D2, D3] ++ l2 := by simp
  have hrange : validateAndTransformTargets (l1 ++ [D1, D2, D3] ++ l2)
      (.range D1 D3) = some [D1, D2, D3] := by
    have hf1 : findClosest (l1 ++ [D1, D2, D3] ++ l2) D1 .smaller = some D1 := by
      unfold findClosest
      rw [if_pos hm1]
    have hf3 : findClosest (l1 ++ [D1, D2, D3] ++ l2) D3 .larger = some D3 := by
      unfold findClosest
      rw [if_pos hm3]
    unfold validateAndTransformTargets
    dsimp only
    rw [hf1, hf3]
    dsimp only
    have hi : pyIndex D1 (l1 ++ [D1, D2, D3] ++ l2) = l1.length := by
      have hsplit : l1 ++ [D1, D2, D3] ++ l2 = l1 ++ D1 :: ([D2, D3] ++ l2) := by
        simp
      rw [hsplit]
      exact pyIndex_append D1 l1 ([D2, D3] ++ l2) h1
    have hj : pyIndex D3 (l1 ++ [D1, D2, D3] ++ l2) = l1.length + 2 := by
      have hsplit : l1 ++ [D1, D2, D3] ++ l2 = (l1 ++ [D1, D2]) ++ D3 :: l2 := by
        simp
      rw [hsplit, pyIndex_append D3 (l1 ++ [D1, D2]) l2 h3]
      simp
    rw [hi, hj]
    have hdrop : (l1 ++ [D1, D2, D3] ++ l2).drop l1.length = [D1, D2, D3] ++ l2 := by
      have hsplit : l1 ++ [D1, D2, D3] ++ l2 = l1 ++ ([D1, D2, D3] ++ l2) := by
        simp
      rw [hsplit]
      exact List.drop_left l1 ([D1, D2, D3] ++ l2)
    rw [hdrop]
    have harith : l1.length + 2 + 1 - l1.length = 3 := by omega
    rw [harith]
    rfl
  have hlist : validateAndTransformTargets (l1 ++ [D1, D2, D3] ++ l2)
      (.list [D1, D2, D3]) = some [D1, D2, D3] := by
    unfold validateAndTransformTargets
    simp [snapAll, findClosest, hm1, hm2, hm3]
  unfold createMultiMapping sortedHopDates
  rcases ho : findClosest (l1 ++ [D1, D2, D3] ++ l2) D0 .smaller with _ | o
  · rfl
  · rw [hrange, hlist]

/-- C5 witness: catalog [1, 5, 6, 7, 99]; the Range target (5, 7) and the
List target [5, 6, 7] produce the same table for origin 2. -/
theorem c5_witness :
    createMultiMapping [1, 5, 6, 7, 99] (fun a b => [⟨a, "", b, ""⟩]) 2 (.range 5 7) =
      createMultiMapping [1, 5, 6, 7, 99] (fun a b => [⟨a, "", b, ""⟩]) 2
        (.list [5, 6, 7]) :=
  c5_range_target_equals_list_target [1] [99] 2 5 6 7
    (fun a b => [⟨a, "", b, ""⟩]) (by decide) (by decide)

/-- A caller row for the newest-state projector
(`map_multiple_gemeindestaende_to_newest`): the BFS code column (missing
values possible), the as-of Gemeindestand column (missing possible), and the
projected column `bfs_gmde_code_<newest>` that the method creates or
overwrites. -/
structure PRow where
  code : Option Nat
  stand : Option Nat
  proj : Option Nat
deriving DecidableEq, Repr

/-- `df[~df[stand].isna()][stand].unique()` (first-appearance order) then
Python `sorted`: the distinct non-null as-of dates, ascending
(code_mapper.py lines 540-544). -/
def projDates (df : List PRow) : List Nat :=
  pySorted ((df.filterMap PRow.stand).dedup)

/-- The row-level effect of lines 547-548: the projected column is created
with value 0 and the code column is filled with 0 and cast to int. -/
def pre1 (r : PRow) : PRow :=
  { r with proj := some 0, code := some (r.code.getD 0) }

/-- Lines 547-548: create the projected column with value 0 everywhere and
cast the code column to int after filling missing values with 0; both mutate
the caller's frame in place. -/
def projectorPre (df : List PRow) : List PRow :=
  df.map pre1

/-- One row's fate under one origin's merge-and-overwrite step (lines
556-569): the fetched mapping carries `InitialCode → TerminalCode` rows all
tagged with this origin date, so the left merge on (stand, code) touches only
rows of this as-of date; k matching edges replicate the row with their
terminal codes (`df.loc[~upd.isna(), proj] = upd`), an unmatched or
missing-key row passes through once with its projected value kept. -/
def applyOrigin (es : List Edge) (o : Nat) (r : PRow) : List PRow :=
  if r.stand = some o then
    match es.filter (fun e => r.code = some e.initialCode) with
    | [] => [r]
    | ms => ms.map (fun e => { r with proj := some e.terminalCode })
  else [r]

/-- The fold over the per-origin fetched mappings, in chronological origin
order (lines 556-569). -/
def projMergeFold (fetch : Nat → Nat → List Edge) (newest : Nat)
    (origins : List Nat) (df : List PRow) : List PRow :=
  origins.foldl (fun acc o => acc.flatMap (applyOrigin (fetch o newest) o)) df

/-- The row-level effect of line 571: a row whose as-of equals `newest`
copies its own (filled, cast) code into the projected column. -/
def projFinal1 (newest : Nat) (r : PRow) : PRow :=
  if r.stand = some newest then { r with proj := r.code } else r

/-- Line 571: rows whose as-of already equals `newest` copy their own (filled,
cast) code into the projected column. -/
def projFinal (newest : Nat) (df : List PRow) : List PRow :=
  df.map (projFinal1 newest)

/-- `map_multiple_gemeindestaende_to_newest` (code_mapper.py lines 520-573)
with the correspondence fetch abstracted as a deterministic function. `none`
models the `IndexError` of `date_strings[-1]` when no row carries an as-of
date. -/
def mapMultipleToNewest (fetch : Nat → Nat → List Edge) (df : List PRow) :
    Option (List PRow) :=
  match (projDates df).getLast? with
  | none => none
  | some newest =>
    let origins := (projDates df).dropLast
    some (projFinal newest (projMergeFold fetch newest origins (projectorPre df)))

/-- The caller's DataFrame object after the call: the in-place mutations are
the projected-column creation (line 547) and the code-column
`fillna(0).astype(int)` (line 548); when there is no older origin the loop
never rebinds `df`, so the identity-copy of line 571 also hits the caller's
object. Later merges rebind the local name and do not touch the caller's
frame. -/
def callerFrameAfter (df : List PRow) : List PRow :=
  match (projDates df).getLast? with
  | none => df
  | some newest =>
    let origins := (projDates df).dropLast
    if origins.isEmpty then projFinal newest (projectorPre df)
    else projectorPre df

/-- The identity-copy step of line 571 never changes the code column. -/
theorem projFinal1_code (newest : Nat) (r : PRow) :
    (projFinal1 newest r).code = r.code := by
  unfold projFinal1
  by_cases h : r.stand = some newest
  · rw [if_pos h]
  · rw [if_neg h]

/-- The identity-copy step of line 571 never changes the as-of column. -/
theorem projFinal1_stand (newest : Nat) (r : PRow) :
    (projFinal1 newest r).stand = r.stand := by
  unfold projFinal1
  by_cases h : r.stand = some newest
  · rw [if_pos h]
  · rw [if_neg h]

/-- C10: `map_multiple_gemeindestaende_to_newest` mutates the caller's frame
beyond adding the projected column: after every call that reaches the fetch
stage, the caller's code column holds `some (old value or 0)` in every row —
missing values have been replaced by 0 and the column cast to integer, so
the original values and dtype are not preserved. -/
theorem c10_caller_code_column_mutated (df : List PRow) (newest : Nat)
    (hlast : (projDates df).getLast? = some newest) :
    (callerFrameAfter df).map PRow.code =
      df.map (fun r => some (r.code.getD 0)) := by
  unfold callerFrameAfter
  rw [hlast]
  dsimp only
  by_cases hor : ((projDates df).dropLast).isEmpty
  · rw [if_pos hor]
    unfold projFinal projectorPre
    rw [List.map_map, List.map_map]
    apply List.map_congr_left
    intro r _
    exact projFinal1_code newest (pre1 r)
  · rw [if_neg hor]
    unfold projectorPre
    rw [List.map_map]
    rfl

/-- C10 witness: a single row with a missing code and as-of date 1; the
caller's code column afterwards holds 0 in place of the missing value. -/
theorem c10_witness :
    (callerFrameAfter [⟨none, some 1, none⟩]).map PRow.code =
      ([⟨none, some 1, none⟩] : List PRow).map (fun r => some (r.code.getD 0)) :=
  c10_caller_code_column_mutated [⟨none, some 1, none⟩] 1 (by rfl)

/-- Caller data for the C8 scenario: a row of as-of date 1 whose code 5 has
no edge in any fetched mapping, and a row already at the newest date 2. -/
def dfC8 : List PRow :=
  [⟨some 5, some 1, none⟩, ⟨some 9, some 2, none⟩]

/-- C8: the claim says a row whose (as-of, code) matches no edge is left with
a *missing* projected value. With every fetched mapping empty, the unmatched
row (as-of 1, code 5) ends with the sentinel value 0 in the projected column
— the column is initialised to 0 (`df[...] = 0`, line 547), not to a missing
value, so nothing in the returned table is missing. -/
theorem c8_counterexample_sentinel_zero_not_missing :
    mapMultipleToNewest (fun _ _ => []) dfC8 =
      some [⟨some 5, some 1, some 0⟩, ⟨some 9, some 2, some 9⟩] ∧
    (some 0 : Option Nat) ≠ none := by
  constructor
  · decide
  · decide

/-- A fetch in which code 5 splits into 10 and 11 between the states 1
and 2. -/
def fetchSplit : Nat → Nat → List Edge := fun o n =>
  if o = 1 ∧ n = 2 then [⟨5, "", 10, ""⟩, ⟨5, "", 11, ""⟩] else []

/-- Caller data for the C6 scenario: one row at as-of 1 carrying the
splitting code 5, one row already at the newest as-of 2. -/
def dfC6 : List PRow :=
  [⟨some 5, some 1, none⟩, ⟨some 9, some 2, none⟩]

/-- C6: the claim says the newest-state projector is idempotent. When a code
splits across a hop, the left merge replicates its row once per terminal
code on *every* run: the first run turns the code-5 row into two rows
(terminal 10 and 11), the second run turns those two rows into four, so
running the projector on its own output is not a no-op. -/
theorem c6_counterexample_split_breaks_idempotence :
    (mapMultipleToNewest fetchSplit dfC6).bind (mapMultipleToNewest fetchSplit) ≠
      mapMultipleToNewest fetchSplit dfC6 := by
  decide

/-- The per-row result of one origin's merge step when the fetched mapping
has at most one edge per initial code: the first (hence only) matching edge
wins, an unmatched row is unchanged. -/
def applyOrigin1 (es : List Edge) (o : Nat) (r : PRow) : PRow :=
  if r.stand = some o then
    match es.find? (fun e => r.code = some e.initialCode) with
    | none => r
    | some e => { r with proj := some e.terminalCode }
  else r

/-- In a mapping without duplicated initial codes, the rows matching a given
key form exactly the singleton of the found edge. -/
theorem filter_code_unique (es : List Edge)
    (h : (es.map Edge.initialCode).Nodup) (e : Edge) (he : e ∈ es)
    (c : Option Nat) (hc : c = some e.initialCode) :
    es.filter (fun x => decide (c = some x.initialCode)) = [e] := by
  induction es with
  | nil => cases he
  | cons a t ih =>
    have h' : (a.initialCode :: t.map Edge.initialCode).Nodup := by
      rw [List.map_cons] at h
      exact h
    obtain ⟨ha, ht⟩ := List.nodup_cons.mp h'
    rcases List.mem_cons.mp he with rfl | het
    · rw [List.filter_cons]
      have hpa : decide (c = some e.initialCode) = true := by
        rw [hc]
        simp
      rw [if_pos hpa]
      have hnil : t.filter (fun x => decide (c = some x.initialCode)) = [] := by
        rw [List.filter_eq_nil_iff]
        intro x hx hpx
        apply ha
        have hcx : c = some x.initialCode := of_decide_eq_true hpx
        rw [hc] at hcx
        have : e.initialCode = x.initialCode := by
          injection hcx
        rw [this]
        exact List.mem_map_of_mem Edge.initialCode hx
      rw [hnil]
    · have hane : decide (c = some a.initialCode) = false := by
        apply decide_eq_false
        intro hca
        rw [hc] at hca
        have heq : e.initialCode = a.initialCode := by
          injection hca
        apply ha
        rw [← heq]
        exact List.mem_map_of_mem Edge.initialCode het
      rw [List.filter_cons, if_neg (by simp [hane])]
      exact ih ht het

/-- Without duplicated initial codes, the merge step expands every row to
exactly one row, the one computed by `applyOrigin1`. -/
theorem applyOrigin_eq_single (es : List Edge) (o : Nat) (r : PRow)
    (h : (es.map Edge.initialCode).Nodup) :
    applyOrigin es o r = [applyOrigin1 es o r] := by
  unfold applyOrigin applyOrigin1
  by_cases hst : r.stand = some o
  · rw [if_pos hst, if_pos hst]
    rcases hfind : es.find? (fun e => r.code = some e.initialCode) with _ | e
    · have hfil : es.filter (fun e => decide (r.code = some e.initialCode)) = [] := by
        rw [List.filter_eq_nil_iff]
        exact List.find?_eq_none.mp hfind
      rw [hfil, hfind]
    · have hmem : e ∈ es := List.mem_of_find?_eq_some hfind
      have hc : r.code = some e.initialCode := by
        have hp := List.find?_some hfind
        exact of_decide_eq_true hp
      rw [filter_code_unique es h e hmem r.code hc, hfind]
      rfl
  · rw [if_neg hst, if_neg hst]

/-- The single-row merge step never changes the as-of or code columns. -/
theorem applyOrigin1_fields (es : List Edge) (o : Nat) (r : PRow) :
    (applyOrigin1 es o r).stand = r.stand ∧ (applyOrigin1 es o r).code = r.code := by
  unfold applyOrigin1
  by_cases hst : r.stand = some o
  · rw [if_pos hst]
    rcases hf : es.find? (fun e => r.code = some e.initialCode) with _ | e
    · rw [hf]
      exact ⟨rfl, rfl⟩
    · rw [hf]
      exact ⟨rfl, rfl⟩
  · rw [if_neg hst]
    exact ⟨rfl, rfl⟩

/-- The per-row composition of all per-origin merge steps, in chronological
origin order. -/
def foldOrigins (fetch : Nat → Nat → List Edge) (newest : Nat)
    (origins : List Nat) (r : PRow) : PRow :=
  origins.foldl (fun r o => applyOrigin1 (fetch o newest) o r) r

/-- A flatMap of singletons is a map. -/
theorem flatMap_singleton_eq_map {α β : Type} (l : List α) (g : α → β) :
    l.flatMap (fun a => [g a]) = l.map g := by
  induction l with
  | nil => rfl
  | cons a t ih =>
    rw [List.flatMap_cons, List.map_cons, ih]
    rfl

/-- Without duplicated initial codes, the whole merge fold acts row by
row. -/
theorem projMergeFold_map (fetch : Nat → Nat → List Edge) (newest : Nat)
    (hn : ∀ o n, ((fetch o n).map Edge.initialCode).Nodup) :
    ∀ (origins : List Nat) (df : List PRow),
      projMergeFold fetch newest origins df =
        df.map (foldOrigins fetch newest origins) := by
  intro origins
  induction origins with
  | nil =>
    intro df
    exact (List.map_id df).symm
  | cons o os ih =>
    intro df
    have hsingle : df.flatMap (applyOrigin (fetch o newest) o) =
        df.map (applyOrigin1 (fetch o newest) o) := by
      have hpt : ∀ r, applyOrigin (fetch o newest) o r =
          [applyOrigin1 (fetch o newest) o r] :=
        fun r => applyOrigin_eq_single (fetch o newest) o r (hn o newest)
      calc df.flatMap (applyOrigin (fetch o newest) o)
          = df.flatMap (fun r => [applyOrigin1 (fetch o newest) o r]) :=
            congrArg (fun f => df.flatMap f) (funext hpt)
        _ = df.map (applyOrigin1 (fetch o newest) o) :=
            flatMap_singleton_eq_map df _
    show List.foldl (fun acc o => acc.flatMap (applyOrigin (fetch o newest) o))
        df (o :: os) = _
    rw [List.foldl_cons]
    have hstep : df.flatMap (applyOrigin (fetch o newest) o) =
        df.map (applyOrigin1 (fetch o newest) o) := hsingle
    rw [hstep]
    have hrec := ih (df.map (applyOrigin1 (fetch o newest) o))
    unfold projMergeFold at hrec
    rw [hrec, List.map_map]
    rfl

/-- The per-row merge composition never changes the as-of or code columns. -/
theorem foldOrigins_fields (fetch : Nat → Nat → List Edge) (newest : Nat) :
    ∀ (origins : List Nat) (r : PRow),
      (foldOrigins fetch newest origins r).stand = r.stand ∧
        (foldOrigins fetch newest origins r).code = r.code := by
  intro origins
  induction origins with
  | nil =>
    intro r
    exact ⟨rfl, rfl⟩
  | cons o os ih =>
    intro r
    have hstep := applyOrigin1_fields (fetch o newest) o r
    have hrest := ih (applyOrigin1 (fetch o newest) o r)
    exact ⟨hrest.1.trans hstep.1, hrest.2.trans hstep.2⟩

/-- The complete per-row effect of the projector: column creation and cast,
merge fold, identity copy at the newest state. -/
def projectRowFun (fetch : Nat → Nat → List Edge) (newest : Nat)
    (origins : List Nat) (r : PRow) : PRow :=
  projFinal1 newest (foldOrigins fetch newest origins (pre1 r))

/-- The per-row projector preserves the as-of column. -/
theorem projectRowFun_stand (fetch : Nat → Nat → List Edge) (newest : Nat)
    (origins : List Nat) (r : PRow) :
    (projectRowFun fetch newest origins r).stand = r.stand := by
  unfold projectRowFun
  rw [projFinal1_stand, (foldOrigins_fields fetch newest origins (pre1 r)).1]
  rfl

/-- The per-row projector leaves the code column filled and cast. -/
theorem projectRowFun_code (fetch : Nat → Nat → List Edge) (newest : Nat)
    (origins : List Nat) (r : PRow) :
    (projectRowFun fetch newest origins r).code = some (r.code.getD 0) := by
  unfold projectRowFun
  rw [projFinal1_code, (foldOrigins_fields fetch newest origins (pre1 r)).2]
  rfl

/-- Without duplicated initial codes, the whole projector acts row by row. -/
theorem mapMultipleToNewest_eq_map (fetch : Nat → Nat → List Edge)
    (hn : ∀ o n, ((fetch o n).map Edge.initialCode).Nodup)
    (df : List PRow) (newest : Nat)
    (hlast : (projDates df).getLast? = some newest) :
    mapMultipleToNewest fetch df =
      some (df.map (projectRowFun fetch newest ((projDates df).dropLast))) := by
  unfold mapMultipleToNewest
  rw [hlast]
  dsimp only
  congr 1
  unfold projFinal projectorPre
  rw [projMergeFold_map fetch newest hn, List.map_map, List.map_map]
  rfl

/-- The per-row projector leaves the as-of column intact, so a projected
frame exposes the same as-of dates. -/
theorem projDates_map_projectRowFun (fetch : Nat → Nat → List Edge)
    (newest : Nat) (origins : List Nat) (df : List PRow) :
    projDates (df.map (projectRowFun fetch newest origins)) = projDates df := by
  unfold projDates
  have hfm : (df.map (projectRowFun fetch newest origins)).filterMap PRow.stand =
      df.filterMap PRow.stand := by
    rw [List.filterMap_map]
    have hfun : (PRow.stand ∘ projectRowFun fetch newest origins) = PRow.stand :=
      funext (fun r => projectRowFun_stand fetch newest origins r)
    rw [hfun]
  rw [hfm]

/-- The per-row projector is idempotent: a second pass sees the same as-of
date and the same already-filled code, hence recomputes the same projected
value. -/
theorem projectRowFun_idem (fetch : Nat → Nat → List Edge) (newest : Nat)
    (origins : List Nat) (r : PRow) :
    projectRowFun fetch newest origins (projectRowFun fetch newest origins r) =
      projectRowFun fetch newest origins r := by
  have hpre : pre1 (projectRowFun fetch newest origins r) = pre1 r := by
    unfold pre1
    rw [projectRowFun_code fetch newest origins r,
      projectRowFun_stand fetch newest origins r]
    rfl
  show projFinal1 newest (foldOrigins fetch newest origins
      (pre1 (projectRowFun fetch newest origins r))) =
    projectRowFun fetch newest origins r
  rw [hpre]
  rfl

/-- C6 (amended): the newest-state projector is idempotent provided every
fetched mapping contains at most one edge per initial code (no splits): with
a deterministic fetch, running `map_multiple_gemeindestaende_to_newest` on
its own output returns the same result as running it once. -/
theorem c6_amended_idempotent_without_splits (fetch : Nat → Nat → List Edge)
    (hn : ∀ o n, ((fetch o n).map Edge.initialCode).Nodup) (df : List PRow) :
    (mapMultipleToNewest fetch df).bind (mapMultipleToNewest fetch) =
      mapMultipleToNewest fetch df := by
  cases hlast : (projDates df).getLast? with
  | none =>
    have h0 : mapMultipleToNewest fetch df = none := by
      unfold mapMultipleToNewest
      rw [hlast]
    rw [h0]
    rfl
  | some newest =>
    have hR := mapMultipleToNewest_eq_map fetch hn df newest hlast
    have hdates : projDates
        (df.map (projectRowFun fetch newest ((projDates df).dropLast))) =
        projDates df :=
      projDates_map_projectRowFun fetch newest _ df
    have hR2 := mapMultipleToNewest_eq_map fetch hn
      (df.map (projectRowFun fetch newest ((projDates df).dropLast))) newest
      (by rw [hdates]; exact hlast)
    rw [hR]
    show mapMultipleToNewest fetch
        (df.map (projectRowFun fetch newest ((projDates df).dropLast))) =
      some (df.map (projectRowFun fetch newest ((projDates df).dropLast)))
    rw [hR2, hdates]
    congr 1
    rw [List.map_map]
    apply List.map_congr_left
    intro r _
    exact projectRowFun_idem fetch newest _ r

/-- A split-free fetch: code 5 maps to the single terminal 10 between the
states 1 and 2. -/
def fetchOne : Nat → Nat → List Edge := fun o n =>
  if o = 1 ∧ n = 2 then [⟨5, "", 10, ""⟩] else []

/-- C6 witness: with the split-free fetchOne, projecting dfC6 twice equals
projecting it once. -/
theorem c6_amended_witness :
    (mapMultipleToNewest fetchOne dfC6).bind (mapMultipleToNewest fetchOne) =
      mapMultipleToNewest fetchOne dfC6 :=
  c6_amended_idempotent_without_splits fetchOne
    (by
      intro o n
      unfold fetchOne
      split
      · decide
      · exact List.nodup_nil)
    dfC6

/-- The per-row expansion of the whole merge fold (one row through every
per-origin left merge, in order). -/
def applyOrigins (fetch : Nat → Nat → List Edge) (newest : Nat)
    (origins : List Nat) (r : PRow) : List PRow :=
  origins.foldl (fun rs o => rs.flatMap (applyOrigin (fetch o newest) o)) [r]

/-- Unfolding one origin of the per-row expansion. -/
theorem applyOrigins_cons (fetch : Nat → Nat → List Edge) (newest o : Nat)
    (os : List Nat) (r : PRow) :
    applyOrigins fetch newest (o :: os) r =
      List.foldl (fun rs o => rs.flatMap (applyOrigin (fetch o newest) o))
        (applyOrigin (fetch o newest) o r) os := by
  unfold applyOrigins
  rw [List.foldl_cons, List.flatMap_singleton]

/-- The merge fold is the row-wise concatenation of the per-row
expansions. -/
theorem projMergeFold_flatMap (fetch : Nat → Nat → List Edge) (newest : Nat) :
    ∀ (origins : List Nat) (df : List PRow),
      projMergeFold fetch newest origins df =
        df.flatMap (applyOrigins fetch newest origins) := by
  intro origins
  induction origins with
  | nil =>
    intro df
    show df = df.flatMap (fun r => [r])
    rw [flatMap_singleton_eq_map df (fun r => r)]
    exact (List.map_id df).symm
  | cons o os ih =>
    intro df
    show List.foldl (fun rs o => rs.flatMap (applyOrigin (fetch o newest) o))
        df (o :: os) = _
    rw [List.foldl_cons]
    have h1 := ih (df.flatMap (applyOrigin (fetch o newest) o))
    unfold projMergeFold at h1
    rw [h1, List.flatMap_assoc]
    congr 1
    funext r
    rw [applyOrigins_cons]
    have h3 := ih (applyOrigin (fetch o newest) o r)
    unfold projMergeFold at h3
    rw [h3]

/-- A row that no origin's merge touches survives its expansion alone and
unchanged. -/
theorem applyOrigins_fixed (fetch : Nat → Nat → List Edge) (newest : Nat) :
    ∀ (origins : List Nat) (r : PRow),
      (∀ o ∈ origins, applyOrigin (fetch o newest) o r = [r]) →
      applyOrigins fetch newest origins r = [r] := by
  intro origins
  induction origins with
  | nil =>
    intro r _
    rfl
  | cons o os ih =>
    intro r h
    rw [applyOrigins_cons, h o (List.mem_cons_self o os)]
    exact ih r (fun o' ho' => h o' (List.mem_cons_of_mem o ho'))

/-- Each merge step keeps the projected and code columns non-missing. -/
theorem applyOrigin_keep (es : List Edge) (o : Nat) (r : PRow)
    (h : r.proj ≠ none ∧ r.code ≠ none) :
    ∀ r' ∈ applyOrigin es o r, r'.proj ≠ none ∧ r'.code ≠ none := by
  intro r' hr'
  unfold applyOrigin at hr'
  by_cases hst : r.stand = some o
  · rw [if_pos hst] at hr'
    rcases hfil : es.filter (fun e => r.code = some e.initialCode) with _ | ⟨m, ms⟩
    · rw [hfil] at hr'
      simp at hr'
      rw [hr']
      exact h
    · rw [hfil] at hr'
      rcases List.mem_map.mp hr' with ⟨e, _, he⟩
      rw [← he]
      exact ⟨by simp, h.2⟩
  · rw [if_neg hst] at hr'
    simp at hr'
    rw [hr']
    exact h

/-- The whole merge fold keeps the projected and code columns
non-missing. -/
theorem projMergeFold_keep (fetch : Nat → Nat → List Edge) (newest : Nat) :
    ∀ (origins : List Nat) (df : List PRow),
      (∀ r ∈ df, r.proj ≠ none ∧ r.code ≠ none) →
      ∀ r' ∈ projMergeFold fetch newest origins df,
        r'.proj ≠ none ∧ r'.code ≠ none := by
  intro origins
  induction origins with
  | nil =>
    intro df h r' hr'
    exact h r' hr'
  | cons o os ih =>
    intro df h
    show ∀ r' ∈ List.foldl (fun rs o => rs.flatMap (applyOrigin (fetch o newest) o))
        (df.flatMap (applyOrigin (fetch o newest) o)) os, _
    apply ih
    intro r' hr'
    rcases List.mem_flatMap.mp hr' with ⟨r, hr, hmem⟩
    exact applyOrigin_keep (fetch o newest) o r (h r hr) r' hmem

/-- The projector's as-of dates are pairwise distinct. -/
theorem projDates_nodup (df : List PRow) : (projDates df).Nodup := by
  unfold projDates
  exact (pySorted_perm _).nodup_iff.mpr (List.nodup_dedup _)

/-- In a duplicate-free list the elements before the last differ from the
last. -/
theorem dropLast_ne_getLast (l : List Nat) (hnd : l.Nodup) (x : Nat)
    (hl : l.getLast? = some x) : ∀ y ∈ l.dropLast, y ≠ x := by
  have hne : l ≠ [] := by
    intro h
    rw [h] at hl
    cases hl
  have hx : x = l.getLast hne := by
    have hg := List.getLast?_eq_getLast l hne
    rw [hg] at hl
    injection hl.symm
  subst hx
  have hsplit := List.dropLast_append_getLast hne
  intro y hy he
  rw [← hsplit] at hnd
  rcases List.nodup_append.mp hnd with ⟨_, _, hdisj⟩
  apply hdisj hy
  rw [he]
  exact List.mem_singleton_self _

/-- C8 (amended): whenever the projector runs (some row carries an as-of
date), it succeeds with a table in which every projected value is
non-missing — being initialised to the sentinel 0 and only ever overwritten
by a fetched terminal code or by the row's own code; in particular a row
whose (as-of, code) pair matches no edge of its origin's fetched mapping
appears in the output unchanged except for the fill/cast, carrying the
sentinel 0 (not a missing value) in the projected column; and the call never
raises. -/
theorem c8_amended_unmatched_rows_keep_sentinel_zero
    (fetch : Nat → Nat → List Edge) (df : List PRow) (newest : Nat)
    (hlast : (projDates df).getLast? = some newest) :
    ∃ R, mapMultipleToNewest fetch df = some R ∧
      (∀ r' ∈ R, r'.proj ≠ none) ∧
      ∀ r ∈ df, ∀ o, r.stand = some o → o ∈ (projDates df).dropLast →
        (fetch o newest).filter
          (fun e => decide ((some (r.code.getD 0) : Option Nat) = some e.initialCode)) = [] →
        ({ r with proj := some 0, code := some (r.code.getD 0) } : PRow) ∈ R := by
  refine ⟨projFinal newest (projMergeFold fetch newest ((projDates df).dropLast)
    (projectorPre df)), ?_, ?_, ?_⟩
  · unfold mapMultipleToNewest
    rw [hlast]
  · intro r' hr'
    unfold projFinal at hr'
    rcases List.mem_map.mp hr' with ⟨q, hq, hqe⟩
    have hkeep := projMergeFold_keep fetch newest ((projDates df).dropLast)
      (projectorPre df)
      (by
        intro p hp
        unfold projectorPre at hp
        rcases List.mem_map.mp hp with ⟨p0, _, hp0⟩
        rw [← hp0]
        exact ⟨by simp [pre1], by simp [pre1]⟩)
      q hq
    rw [← hqe]
    unfold projFinal1
    by_cases hqs : q.stand = some newest
    · rw [if_pos hqs]
      exact hkeep.2
    · rw [if_neg hqs]
      exact hkeep.1
  · intro r hr o hro ho hnom
    have hpre_mem : pre1 r ∈ projectorPre df := List.mem_map_of_mem pre1 hr
    have hfixed : applyOrigins fetch newest ((projDates df).dropLast) (pre1 r) =
        [pre1 r] := by
      apply applyOrigins_fixed
      intro o' ho'
      unfold applyOrigin
      by_cases hoo : o' = o
      · subst hoo
        have hst : (pre1 r).stand = some o' := hro
        rw [if_pos hst]
        have hfil : (fetch o' newest).filter
            (fun e => decide ((pre1 r).code = some e.initialCode)) = [] := hnom
        rw [hfil]
      · have hst : ¬ (pre1 r).stand = some o' := by
          show ¬ r.stand = some o'
          rw [hro]
          intro hcon
          exact hoo (Option.some.inj hcon).symm
        rw [if_neg hst]
    have hmid : pre1 r ∈ projMergeFold fetch newest ((projDates df).dropLast)
        (projectorPre df) := by
      rw [projMergeFold_flatMap]
      exact List.mem_flatMap.mpr ⟨pre1 r, hpre_mem, by
        rw [hfixed]
        exact List.mem_singleton_self _⟩
    have honew : o ≠ newest :=
      dropLast_ne_getLast (projDates df) (projDates_nodup df) newest hlast o ho
    have hfin : projFinal1 newest (pre1 r) = pre1 r := by
      unfold projFinal1
      rw [if_neg (by
        show ¬ r.stand = some newest
        rw [hro]
        intro hcon
        exact honew (Option.some.inj hcon))]
    show pre1 r ∈ projFinal newest (projMergeFold fetch newest
      ((projDates df).dropLast) (projectorPre df))
    unfold projFinal
    rw [← hfin]
    exact List.mem_map_of_mem (projFinal1 newest) hmid

/-- C8 witness: dfC8 with an everywhere-empty fetch; the unmatched row
(as-of 1, code 5) appears in the output with the sentinel 0. -/
theorem c8_amended_witness :
    ∃ R, mapMultipleToNewest (fun _ _ => []) dfC8 = some R ∧
      (∀ r' ∈ R, r'.proj ≠ none) ∧
      ∀ r ∈ dfC8, ∀ o, r.stand = some o → o ∈ (projDates dfC8).dropLast →
        (([] : List Edge)).filter
          (fun e => decide ((some (r.code.getD 0) : Option Nat) = some e.initialCode)) = [] →
        ({ r with proj := some 0, code := some (r.code.getD 0) } : PRow) ∈ R :=
  c8_amended_unmatched_rows_keep_sentinel_zero (fun _ _ => []) dfC8 2 (by rfl)
